import Mathlib

/-!
# Wordle Buster — verification of the constraint engine

Shallow embedding of `wordle_engine.py` (and the reset flow of
`streamlit_app.py`) from the Loowaa/wordle-buster repository, together with
proofs relating the code to its natural-language specification.

Modelling conventions:
* Python `str` is Lean `String`; character-level work is done on `List Char`.
* Python `str.lower()` is `pyLower` (character-wise `Char.toLower`).
* A Python `AssertionError` (the `assert` in `score_guess`) is modelled by
  `Option`: `none` is the exception propagating, `some` a normal return.
  `word_matches_history`, `filter_candidates` and `get_candidates` thread
  the exception exactly as Python propagates it (a comprehension aborts at
  the first element that raises).
* The index loops `for i in range(5)` of `score_guess` run over arrays whose
  length the preceding `assert` fixes to 5; they are rendered as structural
  recursion over the lists, which agrees with the source on all inputs that
  pass the assert.
-/

set_option maxHeartbeats 1000000

namespace WordleBuster

/-- Character-wise lowercasing, the embedding of Python `str.lower()` on the
ASCII words this program handles. -/
def pyLower (s : List Char) : List Char := s.map Char.toLower

/-- Embedding of Python `str.strip()`: drop leading and trailing
whitespace. -/
def pyStrip (s : List Char) : List Char :=
  ((s.dropWhile Char.isWhitespace).reverse.dropWhile Char.isWhitespace).reverse

/-- First pass of `score_guess` (wordle_engine.py lines 80–87): the result
list starts all `'b'`, positions with `guess[i] == secret_chars[i]` become
`'g'` and the secret letter there is consumed (`secret_chars[i] = None`).
Returns the pair `(result, secret_chars)` after the loop. -/
def pass1 : List Char → List Char → List Char × List (Option Char)
  | g :: gs, s :: ss =>
    let p := pass1 gs ss
    if g = s then ('g' :: p.1, none :: p.2) else ('b' :: p.1, some s :: p.2)
  | _, _ => ([], [])

/-- The consumption step `secret_chars[secret_chars.index(guess[i])] = None`
of wordle_engine.py line 96: replace the first element equal to `some c` by
`none`. -/
def consumeFirst (c : Char) : List (Option Char) → List (Option Char)
  | [] => []
  | x :: xs => if x = some c then none :: xs else x :: consumeFirst c xs

/-- Second pass of `score_guess` (wordle_engine.py lines 89–96): green
positions are skipped; otherwise, if `guess[i] in secret_chars`, the symbol
becomes `'y'` and the first matching occurrence is consumed; otherwise the
symbol is left as it was (grey). -/
def pass2 : List Char → List Char → List (Option Char) → List Char
  | g :: gs, r :: rs, sec =>
    if r = 'g' then r :: pass2 gs rs sec
    else if some g ∈ sec then 'y' :: pass2 gs rs (consumeFirst g sec)
    else r :: pass2 gs rs sec
  | _, _, _ => []

/-- Body of `score_guess` after the `assert`: pass 1 then pass 2. -/
def scoreCore (secret guess : List Char) : List Char :=
  let p := pass1 guess secret
  pass2 guess p.1 p.2

/-- Embedding of `score_guess` (wordle_engine.py lines 67–98).  Both inputs
are lowercased; the `assert len(secret) == len(guess) == 5` is modelled by
returning `none` (the AssertionError) when it fails. -/
def score_guess (secret guess : String) : Option String :=
  let s := pyLower secret.toList
  let g := pyLower guess.toList
  if s.length = g.length ∧ g.length = 5 then some (String.mk (scoreCore s g))
  else none

/-- Embedding of the dataclass `GuessResult` (wordle_engine.py lines 19–22). -/
structure GuessResult where
  word : String
  pattern : String
deriving DecidableEq

/-- Embedding of `WordleSession` (wordle_engine.py lines 24–43): the word
list and the mutable guess history. -/
structure WordleSession where
  word_list : List String
  history : List GuessResult
deriving DecidableEq

/-- Embedding of `WordleSession.add_guess`: append the record verbatim. -/
def WordleSession.add_guess (s : WordleSession) (word pattern : String) :
    WordleSession :=
  { s with history := s.history ++ [GuessResult.mk word pattern] }

/-- Embedding of `WordleSession.get_history_tuples`. -/
def WordleSession.get_history_tuples (s : WordleSession) :
    List (String × String) :=
  s.history.map (fun g => (g.word, g.pattern))

/-- Embedding of `word_matches_history` (wordle_engine.py lines 101–111):
scan the history in order, returning `some false` at the first pattern
mismatch; a raised AssertionError inside `score_guess` propagates as
`none`. -/
def word_matches_history (candidate : String) :
    List (String × String) → Option Bool
  | [] => some true
  | (guess, pattern) :: rest =>
    match score_guess candidate guess with
    | none => none
    | some p => if p ≠ pattern then some false else
        word_matches_history candidate rest

/-- Embedding of `filter_candidates` (wordle_engine.py lines 114–119): the
list comprehension evaluates `word_matches_history` once per word in order;
an exception aborts the whole comprehension. -/
def filter_candidates (word_list : List String)
    (history : List (String × String)) : Option (List String) :=
  match word_list with
  | [] => some []
  | w :: ws =>
    match word_matches_history w history with
    | none => none
    | some b =>
      (filter_candidates ws history).map
        (fun rest => if b then w :: rest else rest)

/-- Embedding of `WordleSession.get_candidates`. -/
def WordleSession.get_candidates (s : WordleSession) : Option (List String) :=
  filter_candidates s.word_list s.get_history_tuples

/-- Embedding of `load_word_list` (wordle_engine.py lines 7–14) applied to
the lines of the word file: each line is stripped and lowercased, and kept
only when the result is 5 alphabetic characters; the loop appends in file
order. -/
def load_word_list (lines : List String) : List String :=
  lines.foldl
    (fun words line =>
      let w := pyLower (pyStrip line.toList)
      if w.length = 5 ∧ w.all Char.isAlpha then words ++ [String.mk w]
      else words)
    []

/-- Reset as the UI performs it (streamlit_app.py lines 252–254 with
`init_state`, lines 108–123): the session state is cleared, the word list is
reloaded from the same source lines and a fresh `WordleSession` with empty
history is created. -/
def reset_session (lines : List String) : WordleSession :=
  WordleSession.mk (load_word_list lines) []

example : score_guess "crane" "slate" = some "bbgbg" := by decide
example : score_guess "allow" "lolly" = some "yygbb" := by decide
example : score_guess "crane" "toolong" = none := by decide

/-! ## The scoring algorithm as the specification words it

The specification describes scoring through a set of consumed secret
positions.  `specScore` renders that description directly: pass 1 produces
the green mask (which doubles as the initial consumed set), pass 2 walks the
remaining positions and consumes the leftmost unconsumed occurrence of each
guessed letter. -/

/-- Pass 1 of the specification: position i is green iff
`guess[i] = secret[i]`; the resulting mask also records which secret
positions pass 1 consumed. -/
def specPass1 : List Char → List Char → List Bool
  | g :: gs, s :: ss => decide (g = s) :: specPass1 gs ss
  | _, _ => []

/-- Consumption step of the specification's pass 2: mark as consumed the
first (leftmost) unconsumed occurrence of `c` in the secret, or fail when
no unconsumed occurrence exists. -/
def specConsume (c : Char) : List Char → List Bool → Option (List Bool)
  | s :: ss, b :: bs =>
    if b = false ∧ s = c then some (true :: bs)
    else (specConsume c ss bs).map (fun bs2 => b :: bs2)
  | _, _ => none

/-- Pass 2 of the specification: green positions stay green; any other
position becomes yellow when the guessed letter still has an unconsumed
occurrence in the secret (consuming the leftmost one), and grey otherwise. -/
def specPass2 (secret : List Char) :
    List Char → List Bool → List Bool → List Char
  | g :: gs, gr :: grs, consumed =>
    if gr then 'g' :: specPass2 secret gs grs consumed
    else
      match specConsume g secret consumed with
      | some consumed2 => 'y' :: specPass2 secret gs grs consumed2
      | none => 'b' :: specPass2 secret gs grs consumed
  | _, _, _ => []

/-- The two-pass algorithm exactly as the specification describes it:
pass 1 fully completes (producing the green mask and the consumed set)
before pass 2 begins. -/
def specScore (secret guess : List Char) : List Char :=
  let greens := specPass1 guess secret
  specPass2 secret guess greens greens

/-- The code's consumed-letter list seen through the specification's mask:
entry j of `secret_chars` is `none` exactly when the specification regards
secret position j as consumed. -/
def maskSecret (secret : List Char) (consumed : List Bool) :
    List (Option Char) :=
  List.zipWith (fun s b => if b then none else some s) secret consumed

theorem isSome_map_eq (f : α → β) (o : Option α) :
    (o.map f).isSome = o.isSome := by cases o <;> rfl

theorem pass1_eq : ∀ g s : List Char,
    pass1 g s = ((specPass1 g s).map (fun b => if b then 'g' else 'b'),
      maskSecret s (specPass1 g s))
  | [], s => by cases s <;> simp [pass1, specPass1, maskSecret]
  | x :: xs, [] => by simp [pass1, specPass1, maskSecret]
  | x :: xs, y :: ys => by
    have ih := pass1_eq xs ys
    by_cases h : x = y <;> simp [pass1, specPass1, maskSecret, ih, h]

theorem mem_maskSecret (c : Char) : ∀ (s : List Char) (bs : List Bool),
    (some c ∈ maskSecret s bs) ↔ (specConsume c s bs).isSome
  | [], bs => by cases bs <;> simp [maskSecret, specConsume]
  | x :: xs, [] => by simp [maskSecret, specConsume]
  | x :: xs, b :: bs => by
    have ih := mem_maskSecret c xs bs
    simp only [maskSecret] at ih
    cases b with
    | true => simp [maskSecret, specConsume, ih, isSome_map_eq]
    | false =>
      by_cases hx : x = c
      · subst hx
        simp [maskSecret, specConsume]
      · have hx2 : ¬ c = x := fun hh => hx hh.symm
        simp [maskSecret, specConsume, hx, hx2, ih, isSome_map_eq]

theorem consumeFirst_maskSecret (c : Char) :
    ∀ (s : List Char) (bs bs2 : List Bool),
      specConsume c s bs = some bs2 →
        consumeFirst c (maskSecret s bs) = maskSecret s bs2
  | [], bs, bs2 => by cases bs <;> simp [specConsume]
  | x :: xs, [], bs2 => by simp [specConsume]
  | x :: xs, b :: bs, bs2 => by
    intro h
    cases b with
    | false =>
      by_cases hx : x = c
      · simp [specConsume, hx] at h
        subst h
        simp [maskSecret, consumeFirst, hx]
      · simp [specConsume, hx, Option.map_eq_some'] at h
        obtain ⟨bs3, h3, rfl⟩ := h
        have hrec := consumeFirst_maskSecret c xs bs bs3 h3
        simp only [maskSecret] at hrec
        simp [maskSecret, consumeFirst, hx, hrec]
    | true =>
      simp [specConsume, Option.map_eq_some'] at h
      obtain ⟨bs3, h3, rfl⟩ := h
      have hrec := consumeFirst_maskSecret c xs bs bs3 h3
      simp only [maskSecret] at hrec
      simp [maskSecret, consumeFirst, hrec]

theorem pass2_eq (secret : List Char) :
    ∀ (gs : List Char) (grs consumed : List Bool),
      pass2 gs (grs.map (fun b => if b then 'g' else 'b'))
          (maskSecret secret consumed)
        = specPass2 secret gs grs consumed
  | [], grs, consumed => by simp [pass2, specPass2]
  | x :: xs, [], consumed => by simp [pass2, specPass2]
  | x :: xs, gr :: grs, consumed => by
    cases gr with
    | true => simp [pass2, specPass2, pass2_eq secret xs grs consumed]
    | false =>
      rcases hc : specConsume x secret consumed with _ | consumed2
      · have hmem : ¬ some x ∈ maskSecret secret consumed := by
          rw [mem_maskSecret, hc]; simp
        simp [pass2, specPass2, hc, hmem, pass2_eq secret xs grs consumed]
      · have hmem : some x ∈ maskSecret secret consumed := by
          rw [mem_maskSecret, hc]; simp
        simp [pass2, specPass2, hc, hmem,
          consumeFirst_maskSecret x secret consumed consumed2 hc,
          pass2_eq secret xs grs consumed2]

theorem scoreCore_eq_specScore (secret guess : List Char) :
    scoreCore secret guess = specScore secret guess := by
  show pass2 guess (pass1 guess secret).1 (pass1 guess secret).2 = _
  rw [pass1_eq]
  exact pass2_eq secret guess (specPass1 guess secret) (specPass1 guess secret)

theorem toLower_eq_self (c : Char) (h : c.isLower = true) : c.toLower = c := by
  simp only [Char.isLower, Bool.and_eq_true, decide_eq_true_eq] at h
  have h97 : 97 ≤ c.val.toNat := h.1
  rw [Char.toLower, if_neg]
  intro hcon
  have h90 := hcon.2
  simp only [Char.toNat] at h90
  omega

theorem pyLower_eq_self :
    ∀ l : List Char, (∀ c ∈ l, c.isLower = true) → pyLower l = l
  | [] => fun _ => rfl
  | c :: cs => fun h => by
    have h1 := h c (List.mem_cons_self c cs)
    have h2 : ∀ x ∈ cs, x.isLower = true :=
      fun x hx => h x (List.mem_cons_of_mem c hx)
    have ih := pyLower_eq_self cs h2
    simp [pyLower] at ih ⊢
    exact ⟨toLower_eq_self c h1, ih⟩

/-- C1: for every pair of 5-letter lowercase words (secret, guess),
`score_guess` returns exactly the pattern produced by the specification's
two-pass algorithm: all symbols start grey, pass 1 turns exact matches green
and consumes those secret letters, and pass 2 (running only after pass 1 has
fully completed) turns each remaining position yellow by consuming the
leftmost unconsumed occurrence of its guessed letter, or leaves it grey. -/
theorem score_guess_two_pass (secret guess : String)
    (hs : secret.toList.length = 5) (hg : guess.toList.length = 5)
    (hsl : ∀ c ∈ secret.toList, c.isLower = true)
    (hgl : ∀ c ∈ guess.toList, c.isLower = true) :
    score_guess secret guess
      = some (String.mk (specScore secret.toList guess.toList)) := by
  show (if (pyLower secret.toList).length = (pyLower guess.toList).length
        ∧ (pyLower guess.toList).length = 5 then
      some (String.mk (scoreCore (pyLower secret.toList)
        (pyLower guess.toList)))
    else none) = _
  rw [pyLower_eq_self _ hsl, pyLower_eq_self _ hgl]
  rw [if_pos ⟨by rw [hs, hg], hg⟩]
  rw [scoreCore_eq_specScore]

/-- Witness for C1: secret "allow", guess "lolly". -/
theorem score_guess_two_pass_w :
    score_guess "allow" "lolly"
      = some (String.mk (specScore "allow".toList "lolly".toList)) :=
  score_guess_two_pass "allow" "lolly" (by decide) (by decide) (by decide)
    (by decide)

/-! ## Scoring a word against itself (C5) -/

theorem pass1_self : ∀ l : List Char,
    pass1 l l = (List.replicate l.length 'g', List.replicate l.length none)
  | [] => rfl
  | c :: cs => by simp [pass1, pass1_self cs, List.replicate_succ]

theorem pass2_all_green (sec : List (Option Char)) : ∀ gs : List Char,
    pass2 gs (List.replicate gs.length 'g') sec = List.replicate gs.length 'g'
  | [] => rfl
  | g :: gs => by
    simp [List.replicate_succ, pass2, pass2_all_green sec gs]

/-- C5: scoring any 5-letter word against itself yields the all-green
pattern "ggggg". -/
theorem score_self_all_green (W : String) (h : W.toList.length = 5) :
    score_guess W W = some "ggggg" := by
  show (if (pyLower W.toList).length = (pyLower W.toList).length
        ∧ (pyLower W.toList).length = 5 then
      some (String.mk (scoreCore (pyLower W.toList) (pyLower W.toList)))
    else none) = _
  have hlen : (pyLower W.toList).length = 5 := by
    simpa [pyLower] using h
  rw [if_pos ⟨rfl, hlen⟩]
  show some (String.mk (pass2 (pyLower W.toList)
      (pass1 (pyLower W.toList) (pyLower W.toList)).1
      (pass1 (pyLower W.toList) (pyLower W.toList)).2)) = _
  rw [pass1_self]
  rw [pass2_all_green]
  rw [hlen]
  rfl

/-- Witness for C5 at W = "crane". -/
theorem score_self_all_green_w : score_guess "crane" "crane" = some "ggggg" :=
  score_self_all_green "crane" (by decide)

/-! ## Filtering (C2, C6, C7) -/

/-- The specification's consistency predicate: a candidate is consistent
with the history when replaying the scorer reproduces every recorded
pattern byte-for-byte. -/
def consistentB (c : String) (h : List (String × String)) : Bool :=
  h.all (fun gp => score_guess c gp.1 == some gp.2)

theorem score_guess_eq_some (w g : String) (hw : w.toList.length = 5)
    (hg : g.toList.length = 5) :
    score_guess w g
      = some (String.mk (scoreCore (pyLower w.toList) (pyLower g.toList))) := by
  show (if (pyLower w.toList).length = (pyLower g.toList).length
        ∧ (pyLower g.toList).length = 5 then
      some (String.mk (scoreCore (pyLower w.toList) (pyLower g.toList)))
    else none) = _
  rw [if_pos]
  constructor
  · simp only [pyLower, List.length_map]
    rw [hw, hg]
  · simp only [pyLower, List.length_map, hg]

theorem word_matches_history_eq (w : String) (hw : w.toList.length = 5) :
    ∀ h : List (String × String), (∀ gp ∈ h, gp.1.toList.length = 5) →
      word_matches_history w h = some (consistentB w h)
  | [] => fun _ => by simp [word_matches_history, consistentB]
  | (g, p) :: rest => fun hh => by
    have hg : g.toList.length = 5 := hh (g, p) (List.mem_cons_self _ _)
    have hrest : ∀ gp ∈ rest, gp.1.toList.length = 5 :=
      fun gp hgp => hh gp (List.mem_cons_of_mem _ hgp)
    have ih := word_matches_history_eq w hw rest hrest
    have hscore := score_guess_eq_some w g hw hg
    have hcons : consistentB w ((g, p) :: rest)
        = ((score_guess w g == some p) && consistentB w rest) := by
      simp [consistentB]
    rw [show word_matches_history w ((g, p) :: rest)
        = (match score_guess w g with
          | none => none
          | some q =>
            if q ≠ p then some false else word_matches_history w rest)
        from rfl, hscore, hcons]
    change (if String.mk (scoreCore (pyLower w.toList) (pyLower g.toList)) ≠ p
        then some false else word_matches_history w rest)
      = some ((score_guess w g == some p) && consistentB w rest)
    by_cases hqp :
        String.mk (scoreCore (pyLower w.toList) (pyLower g.toList)) = p
    · have hbeq : (score_guess w g == some p) = true :=
        beq_iff_eq.mpr (by rw [hscore, hqp])
      rw [if_neg (fun hcon => hcon hqp), ih, hbeq, Bool.true_and]
    · have hbeq : (score_guess w g == some p) = false := by
        rw [hscore, beq_eq_false_iff_ne]
        intro hcon
        exact hqp (Option.some.inj hcon)
      rw [if_pos (show ¬ _ = p by exact hqp), hbeq, Bool.false_and]

theorem filter_candidates_nil : ∀ V : List String,
    filter_candidates V [] = some V
  | [] => rfl
  | w :: ws => by
    simp [filter_candidates, word_matches_history, filter_candidates_nil ws]

theorem filter_candidates_eq_some (h : List (String × String))
    (hh : ∀ gp ∈ h, gp.1.toList.length = 5) :
    ∀ V : List String, (∀ w ∈ V, w.toList.length = 5) →
      filter_candidates V h = some (V.filter (fun c => consistentB c h))
  | [] => fun _ => by simp [filter_candidates]
  | w :: ws => fun hV => by
    have hw : w.toList.length = 5 := hV w (List.mem_cons_self _ _)
    have hws : ∀ x ∈ ws, x.toList.length = 5 :=
      fun x hx => hV x (List.mem_cons_of_mem _ hx)
    have hwm := word_matches_history_eq w hw h hh
    have ih := filter_candidates_eq_some h hh ws hws
    cases hb : consistentB w h
    · simp [filter_candidates, hwm, hb, ih, List.filter_cons]
    · simp [filter_candidates, hwm, hb, ih, List.filter_cons]

/-- C2: on 5-letter vocabularies and histories, `filter_candidates` returns
exactly the order-preserving sub-sequence of the vocabulary consisting of the
candidates whose replayed scores reproduce every recorded pattern; and on an
empty history it returns the whole vocabulary unchanged. -/
theorem filter_consistent_subsequence (V : List String)
    (h : List (String × String)) (hV : ∀ w ∈ V, w.toList.length = 5)
    (hh : ∀ gp ∈ h, gp.1.toList.length = 5) :
    filter_candidates V h = some (V.filter (fun c => consistentB c h))
    ∧ filter_candidates V [] = some V :=
  ⟨filter_candidates_eq_some h hh V hV, filter_candidates_nil V⟩

/-- Witness for C2 on a two-word vocabulary and a one-record history. -/
theorem filter_consistent_subsequence_w :
    filter_candidates ["crane", "slate"] [("crane", "ggggg")]
      = some ((["crane", "slate"]).filter
          (fun c => consistentB c [("crane", "ggggg")]))
    ∧ filter_candidates ["crane", "slate"] [] = some ["crane", "slate"] :=
  filter_consistent_subsequence ["crane", "slate"] [("crane", "ggggg")]
    (by decide) (by decide)

theorem mem_filter_candidates_true :
    ∀ (V : List String) (h : List (String × String)) (R : List String),
      filter_candidates V h = some R →
        ∀ w ∈ R, word_matches_history w h = some true
  | [], h, R => by
    intro hR w hw
    simp [filter_candidates] at hR
    subst hR
    simp at hw
  | v :: vs, h, R => by
    intro hR w hw
    rcases hwm : word_matches_history v h with _ | b
    · simp [filter_candidates, hwm] at hR
    · rw [show filter_candidates (v :: vs) h
          = match word_matches_history v h with
            | none => none
            | some b =>
              (filter_candidates vs h).map
                (fun rest => if b then v :: rest else rest)
          from rfl, hwm] at hR
      simp [Option.map_eq_some'] at hR
      obtain ⟨rest, hrest, hR⟩ := hR
      cases b with
      | true =>
        subst hR
        rcases List.mem_cons.mp hw with rfl | hw2
        · simpa using hwm
        · exact mem_filter_candidates_true vs h rest hrest w hw2
      | false =>
        subst hR
        exact mem_filter_candidates_true vs h rest hrest w hw
  termination_by V _ _ => V.length

theorem filter_candidates_of_all_true :
    ∀ (V : List String) (h : List (String × String)),
      (∀ w ∈ V, word_matches_history w h = some true) →
        filter_candidates V h = some V
  | [], h => fun _ => rfl
  | v :: vs, h => fun hall => by
    have hv := hall v (List.mem_cons_self _ _)
    have hvs : ∀ w ∈ vs, word_matches_history w h = some true :=
      fun w hw => hall w (List.mem_cons_of_mem _ hw)
    simp [filter_candidates, hv, filter_candidates_of_all_true vs h hvs]

/-- C6: `filter_candidates` is idempotent — filtering its own output with
the same history yields the identical list (and a raised assertion on the
first run propagates identically). -/
theorem filter_idempotent (V : List String) (h : List (String × String)) :
    (filter_candidates V h).bind (fun R => filter_candidates R h)
      = filter_candidates V h := by
  rcases e : filter_candidates V h with _ | R
  · rfl
  · simpa [Option.bind] using
      filter_candidates_of_all_true R h (mem_filter_candidates_true V h R e)

theorem filter_candidates_eq_filter :
    ∀ (V : List String) (h : List (String × String)) (R : List String),
      filter_candidates V h = some R →
        R = V.filter (fun w => word_matches_history w h == some true)
  | [], h, R => by
    intro hR
    simp [filter_candidates] at hR
    subst hR
    rfl
  | v :: vs, h, R => by
    intro hR
    rcases hwm : word_matches_history v h with _ | b
    · simp [filter_candidates, hwm] at hR
    · rw [show filter_candidates (v :: vs) h
          = match word_matches_history v h with
            | none => none
            | some b =>
              (filter_candidates vs h).map
                (fun rest => if b then v :: rest else rest)
          from rfl, hwm] at hR
      simp [Option.map_eq_some'] at hR
      obtain ⟨rest, hrest, hR⟩ := hR
      have ih := filter_candidates_eq_filter vs h rest hrest
      cases b with
      | true => simp [hR.symm, List.filter_cons, hwm, ih]
      | false => simp [hR.symm, List.filter_cons, hwm, ih]
  termination_by V _ _ => V.length

theorem wmh_append_true (w : String) :
    ∀ (h h2 : List (String × String)),
      word_matches_history w (h ++ h2) = some true →
        word_matches_history w h = some true
  | [], _ => fun _ => rfl
  | (g, p) :: rest, h2 => fun hyp => by
    rcases hsc : score_guess w g with _ | q
    · simp [word_matches_history, hsc] at hyp
    · simp only [List.cons_append, word_matches_history, hsc] at hyp
      simp only [word_matches_history, hsc]
      by_cases hqp : q = p
      · simp [hqp] at hyp ⊢
        exact wmh_append_true w rest h2 hyp
      · simp [hqp] at hyp

/-- C7: appending one record to the history can only shrink the candidate
list — the new result is a subset of the old one and its length never
grows. -/
theorem filter_monotone (V : List String) (h : List (String × String))
    (r : String × String) (R R2 : List String)
    (hR : filter_candidates V h = some R)
    (hR2 : filter_candidates V (h ++ [r]) = some R2) :
    R2 ⊆ R ∧ R2.length ≤ R.length := by
  have e1 := filter_candidates_eq_filter V h R hR
  have e2 := filter_candidates_eq_filter V (h ++ [r]) R2 hR2
  subst e1
  subst e2
  have hsub : List.Sublist
      (V.filter (fun w => word_matches_history w (h ++ [r]) == some true))
      (V.filter (fun w => word_matches_history w h == some true)) := by
    refine List.monotone_filter_right V ?_
    intro w hw
    have hw2 : word_matches_history w (h ++ [r]) = some true := by
      simpa using hw
    simpa using wmh_append_true w h [r] hw2
  exact ⟨hsub.subset, hsub.length_le⟩

/-- Witness for C7: the history grows from empty by the record
("crane", "ggggg") over a three-word vocabulary. -/
theorem filter_monotone_w :
    ["crane"] ⊆ ["crane", "slate", "trace"]
    ∧ (["crane"] : List String).length
        ≤ (["crane", "slate", "trace"] : List String).length :=
  filter_monotone ["crane", "slate", "trace"] [] ("crane", "ggggg")
    ["crane", "slate", "trace"] ["crane"] (by decide) (by decide)

/-! ## Session mutation (C3, C10) and reset (C9) -/

/-- Counterexample to C3: `add_guess` performs no validation and no
normalization — the malformed upper-case word "ABCDEF" (6 characters) and
the 2-symbol pattern "zz" are appended to the history verbatim; nothing is
rejected and the word is not lowercased. -/
theorem add_guess_no_validation_cex :
    ((WordleSession.mk [] []).add_guess "ABCDEF" "zz").history
        = [GuessResult.mk "ABCDEF" "zz"]
    ∧ "ABCDEF".length ≠ 5 ∧ "zz".length ≠ 5 := by
  refine ⟨rfl, ?_, ?_⟩ <;> decide

/-- C3 amended: `add_guess` appends `GuessResult(word, pattern)` verbatim to
the history for arbitrary arguments — it neither validates the shape of the
word or the pattern nor case-normalizes the word (shape validation happens
in the CLI/UI callers before `add_guess` is invoked) — and it leaves the
word list untouched. -/
theorem add_guess_appends_verbatim (s : WordleSession) (word pat : String) :
    (s.add_guess word pat).history = s.history ++ [GuessResult.mk word pat]
    ∧ (s.add_guess word pat).word_list = s.word_list :=
  ⟨rfl, rfl⟩

theorem word_list_foldl_add :
    ∀ (guesses : List (String × String)) (s : WordleSession),
      (guesses.foldl (fun t gp => t.add_guess gp.1 gp.2) s).word_list
        = s.word_list
  | [], _ => rfl
  | gp :: gps, s => by
    rw [List.foldl_cons]
    exact word_list_foldl_add gps (s.add_guess gp.1 gp.2)

/-- C9: after any sequence of `add_guess` calls, the UI reset (clearing the
session state and re-running `init_state`, which reloads the word list from
the same source lines) yields a session with empty history, with the same
vocabulary as the pre-reset session, and whose `get_candidates` returns the
full original vocabulary. -/
theorem reset_restores_vocabulary (lines : List String)
    (guesses : List (String × String)) :
    (reset_session lines).history = []
    ∧ (reset_session lines).word_list
        = (guesses.foldl (fun t gp => t.add_guess gp.1 gp.2)
            (WordleSession.mk (load_word_list lines) [])).word_list
    ∧ (reset_session lines).get_candidates = some (load_word_list lines) := by
  refine ⟨rfl, ?_, ?_⟩
  · rw [word_list_foldl_add]
    rfl
  · show filter_candidates (load_word_list lines) [] = _
    exact filter_candidates_nil _

/-- Counterexample to C10: a malformed guess that is preceded in the history
by a record that already mismatches every candidate is never scored, so
`get_candidates` returns a list (here `some []`) instead of raising the
length assertion — even though the history contains the 7-letter guess
"toolong" and the vocabulary is non-empty. -/
theorem get_candidates_assert_cex :
    (WordleSession.mk ["crane"]
        [GuessResult.mk "slate" "ggggg", GuessResult.mk "toolong" "ggggg"]
      ).get_candidates = some []
    ∧ (pyLower "toolong".toList).length ≠ 5 := by
  refine ⟨?_, ?_⟩ <;> decide

/-- C10 amended: `add_guess` stores word and pattern verbatim with no
validation; if the FIRST history record's guess does not lowercase to a
5-character word and the vocabulary is non-empty, `get_candidates` raises
the length assertion of `score_guess` (modelled as `none`) instead of
returning a list (a malformed guess deeper in the history may instead be
short-circuited past and never scored); and under the precondition that
every stored guess and every vocabulary word has length exactly 5 the
assertion is unreachable and `get_candidates` returns a list. -/
theorem get_candidates_assert (V : List String) (hist : List GuessResult) :
    (∀ word pat : String,
      (WordleSession.mk V hist).add_guess word pat
        = WordleSession.mk V (hist ++ [GuessResult.mk word pat]))
    ∧ (∀ w p rest, hist = GuessResult.mk w p :: rest →
        (pyLower w.toList).length ≠ 5 → V ≠ [] →
          (WordleSession.mk V hist).get_candidates = none)
    ∧ ((∀ r ∈ hist, r.word.toList.length = 5) →
        (∀ v ∈ V, v.toList.length = 5) →
          ∃ l, (WordleSession.mk V hist).get_candidates = some l) := by
  refine ⟨fun word pat => rfl, ?_, ?_⟩
  · intro w p rest hh hw hV
    subst hh
    rcases V with _ | ⟨v, vs⟩
    · exact absurd rfl hV
    · have hsc : score_guess v w = none := by
        show (if (pyLower v.toList).length = (pyLower w.toList).length
            ∧ (pyLower w.toList).length = 5 then
          some (String.mk (scoreCore (pyLower v.toList) (pyLower w.toList)))
        else none) = none
        rw [if_neg]
        intro hcon
        exact hw (by
          have := hcon.2
          simpa [pyLower] using this)
      show filter_candidates (v :: vs) _ = none
      simp [filter_candidates, WordleSession.get_history_tuples,
        word_matches_history, hsc]
  · intro hhist hV
    have hh : ∀ gp ∈ (WordleSession.mk V hist).get_history_tuples,
        gp.1.toList.length = 5 := by
      intro gp hgp
      simp [WordleSession.get_history_tuples] at hgp
      obtain ⟨r, hr, hr2⟩ := hgp
      rw [show gp.1 = r.word from by rw [hr2.symm]]
      exact hhist r hr
    exact ⟨_, filter_candidates_eq_some _ hh V hV⟩

/-- Witness for C10: the malformed first record "toolong" makes
`get_candidates` raise (return `none`) over the non-empty vocabulary
["crane"], while a well-formed session returns a list. -/
theorem get_candidates_assert_w :
    (WordleSession.mk ["crane"]
        [GuessResult.mk "toolong" "ggggg"]).get_candidates = none
    ∧ ∃ l, (WordleSession.mk ["crane"]
        [GuessResult.mk "slate" "bbgbg"]).get_candidates = some l :=
  ⟨(get_candidates_assert ["crane"] [GuessResult.mk "toolong" "ggggg"]).2.1
      "toolong" "ggggg" [] rfl (by decide) (by simp),
    (get_candidates_assert ["crane"] [GuessResult.mk "slate" "bbgbg"]).2.2
      (by decide) (by decide)⟩

/-! ## Vocabulary loading (C8) -/

/-- The specification's per-line treatment: trim, lowercase, and keep the
line only when the cleaned result is exactly 5 alphabetic characters. -/
def keepLine (line : String) : Option String :=
  let w := pyLower (pyStrip line.toList)
  if w.length = 5 ∧ w.all Char.isAlpha then some (String.mk w) else none

/-- Counterexample to C8: the loader does not deduplicate — a source with a
repeated valid line produces a vocabulary that is not duplicate-free. -/
theorem load_word_list_dup_cex :
    load_word_list ["crane", "crane"] = ["crane", "crane"]
    ∧ ¬ (load_word_list ["crane", "crane"]).Nodup := by
  refine ⟨?_, ?_⟩ <;> decide

theorem load_word_list_foldl :
    ∀ (lines : List String) (acc : List String),
      lines.foldl
        (fun words line =>
          let w := pyLower (pyStrip line.toList)
          if w.length = 5 ∧ w.all Char.isAlpha then words ++ [String.mk w]
          else words) acc
      = acc ++ lines.filterMap keepLine
  | [], acc => by simp
  | line :: ls, acc => by
    simp only [List.foldl_cons, List.filterMap_cons, keepLine]
    by_cases hk : (pyLower (pyStrip line.toList)).length = 5
        ∧ (pyLower (pyStrip line.toList)).all Char.isAlpha = true
    · rw [if_pos hk, if_pos hk, load_word_list_foldl ls _]
      simp
    · rw [if_neg hk, if_neg hk, load_word_list_foldl ls acc]

/-- C8 amended: the loader trims and lowercases each line, silently discards
lines that do not clean up to exactly 5 alphabetic characters, and keeps the
remaining words in file order — but it performs no deduplication, so the
vocabulary is duplicate-free only when the valid source lines are. -/
theorem load_word_list_spec (lines : List String) :
    load_word_list lines = lines.filterMap keepLine := by
  have h := load_word_list_foldl lines []
  simpa [load_word_list] using h

/-! ## Letter counting (C4) -/

/-- Number of unconsumed occurrences of `c` left in a `secret_chars` list. -/
def countOpt (c : Char) (sec : List (Option Char)) : Nat :=
  sec.countP (fun x => decide (x = some c))

theorem beq_eq_decide (a b : Char) : (a == b) = decide (a = b) := by
  by_cases h : a = b
  · subst h
    simp
  · rw [beq_eq_false_iff_ne.mpr h, decide_eq_false h]

theorem countOpt_cons (c : Char) (x : Option Char) (sec : List (Option Char)) :
    countOpt c (x :: sec) = countOpt c sec + if x = some c then 1 else 0 := by
  simp [countOpt, List.countP_cons]

theorem countOpt_eq_zero (c : Char) :
    ∀ sec : List (Option Char), some c ∉ sec → countOpt c sec = 0
  | [] => fun _ => rfl
  | x :: xs => fun h => by
    have hx : ¬ x = some c := fun he => h (he ▸ List.mem_cons_self x xs)
    rw [countOpt_cons,
      countOpt_eq_zero c xs (fun hm => h (List.mem_cons_of_mem x hm)),
      if_neg hx]

theorem countOpt_consumeFirst_self (c : Char) :
    ∀ sec : List (Option Char), some c ∈ sec →
      countOpt c (consumeFirst c sec) + 1 = countOpt c sec
  | [] => fun h => absurd h (List.not_mem_nil _)
  | x :: xs => fun h => by
    by_cases hx : x = some c
    · have h1 : consumeFirst c (x :: xs) = none :: xs := by
        simp [consumeFirst, hx]
      rw [h1, countOpt_cons, countOpt_cons, if_pos hx, if_neg (by simp)]
    · have hmem : some c ∈ xs := by
        rcases List.mem_cons.mp h with he | hm
        · exact absurd he.symm hx
        · exact hm
      have h1 : consumeFirst c (x :: xs) = x :: consumeFirst c xs := by
        simp [consumeFirst, hx]
      rw [h1, countOpt_cons, countOpt_cons, if_neg hx]
      have := countOpt_consumeFirst_self c xs hmem
      omega

theorem countOpt_consumeFirst_ne (c d : Char) (hne : d ≠ c) :
    ∀ sec : List (Option Char), countOpt c (consumeFirst d sec) = countOpt c sec
  | [] => rfl
  | x :: xs => by
    by_cases hx : x = some d
    · have h1 : consumeFirst d (x :: xs) = none :: xs := by
        simp [consumeFirst, hx]
      rw [h1, countOpt_cons, countOpt_cons, if_neg (by simp),
        if_neg (fun he => hne (Option.some.inj (hx.symm.trans he)))]
    · have h1 : consumeFirst d (x :: xs) = x :: consumeFirst d xs := by
        simp [consumeFirst, hx]
      rw [h1, countOpt_cons, countOpt_cons, countOpt_consumeFirst_ne c d hne xs]

theorem pass2_yellow_count (c : Char) :
    ∀ (gs rs : List Char) (sec : List (Option Char)),
      gs.length = rs.length →
      (∀ r ∈ rs, r = 'g' ∨ r = 'b') →
      (gs.zip (pass2 gs rs sec)).countP
          (fun x => decide (x.1 = c) && decide (x.2 = 'y'))
        = min (countOpt c sec)
            ((gs.zip rs).countP
              (fun x => decide (x.1 = c) && decide (x.2 ≠ 'g')))
  | [], rs, sec => fun _ _ => by simp [pass2]
  | g :: gs, [], sec => fun hl _ => by simp at hl
  | g :: gs, r :: rs, sec => fun hl hv => by
    have hl2 : gs.length = rs.length := by simpa using hl
    have hvr := hv r (List.mem_cons_self _ _)
    have hv2 : ∀ x ∈ rs, x = 'g' ∨ x = 'b' :=
      fun x hx => hv x (List.mem_cons_of_mem _ hx)
    rcases hvr with hr | hr
    · subst hr
      have hp2 : pass2 (g :: gs) ('g' :: rs) sec = 'g' :: pass2 gs rs sec := by
        simp [pass2]
      rw [hp2]
      simp only [List.zip_cons_cons, List.countP_cons]
      rw [pass2_yellow_count c gs rs sec hl2 hv2]
      simp
    · subst hr
      by_cases hm : some g ∈ sec
      · have hp2 : pass2 (g :: gs) ('b' :: rs) sec
            = 'y' :: pass2 gs rs (consumeFirst g sec) := by
          simp [pass2, hm]
        rw [hp2]
        simp only [List.zip_cons_cons, List.countP_cons]
        by_cases hgc : g = c
        · subst hgc
          rw [pass2_yellow_count g gs rs (consumeFirst g sec) hl2 hv2]
          have h1 := countOpt_consumeFirst_self g sec hm
          simp only [decide_True, Bool.true_and, Bool.and_true, decide_eq_true_eq]
          simp
          omega
        · rw [pass2_yellow_count c gs rs (consumeFirst g sec) hl2 hv2,
            countOpt_consumeFirst_ne c g hgc sec]
          simp [hgc]
      · have hp2 : pass2 (g :: gs) ('b' :: rs) sec = 'b' :: pass2 gs rs sec := by
          simp [pass2, hm]
        rw [hp2]
        simp only [List.zip_cons_cons, List.countP_cons]
        rw [pass2_yellow_count c gs rs sec hl2 hv2]
        by_cases hgc : g = c
        · subst hgc
          have h0 : countOpt g sec = 0 := countOpt_eq_zero g sec hm
          simp [h0]
        · simp [hgc]

theorem pass2_green_count (c : Char) :
    ∀ (gs rs : List Char) (sec : List (Option Char)),
      (gs.zip (pass2 gs rs sec)).countP
          (fun x => decide (x.1 = c) && decide (x.2 = 'g'))
        = (gs.zip rs).countP
            (fun x => decide (x.1 = c) && decide (x.2 = 'g'))
  | [], rs, sec => by simp [pass2]
  | g :: gs, [], sec => by simp [pass2]
  | g :: gs, r :: rs, sec => by
    by_cases hr : r = 'g'
    · subst hr
      have hp2 : pass2 (g :: gs) ('g' :: rs) sec = 'g' :: pass2 gs rs sec := by
        simp [pass2]
      rw [hp2]
      simp only [List.zip_cons_cons, List.countP_cons]
      rw [pass2_green_count c gs rs sec]
    · by_cases hm : some g ∈ sec
      · have hp2 : pass2 (g :: gs) (r :: rs) sec
            = 'y' :: pass2 gs rs (consumeFirst g sec) := by
          simp [pass2, hr, hm]
        rw [hp2]
        simp only [List.zip_cons_cons, List.countP_cons]
        rw [pass2_green_count c gs rs (consumeFirst g sec)]
        simp [hr]
      · have hp2 : pass2 (g :: gs) (r :: rs) sec = r :: pass2 gs rs sec := by
          simp [pass2, hr, hm]
        rw [hp2]
        simp only [List.zip_cons_cons, List.countP_cons]
        rw [pass2_green_count c gs rs sec]

theorem pass2_out_values :
    ∀ (gs rs : List Char) (sec : List (Option Char)),
      (∀ r ∈ rs, r = 'g' ∨ r = 'b') →
      ∀ x ∈ pass2 gs rs sec, x = 'g' ∨ x = 'y' ∨ x = 'b'
  | [], rs, sec => fun _ x hx => by simp [pass2] at hx
  | g :: gs, [], sec => fun _ x hx => by simp [pass2] at hx
  | g :: gs, r :: rs, sec => fun hv x hx => by
    have hvr := hv r (List.mem_cons_self _ _)
    have hv2 : ∀ y ∈ rs, y = 'g' ∨ y = 'b' :=
      fun y hy => hv y (List.mem_cons_of_mem _ hy)
    by_cases hr : r = 'g'
    · subst hr
      rw [show pass2 (g :: gs) ('g' :: rs) sec = 'g' :: pass2 gs rs sec
          from by simp [pass2]] at hx
      rcases List.mem_cons.mp hx with rfl | hx2
      · exact Or.inl rfl
      · exact pass2_out_values gs rs sec hv2 x hx2
    · by_cases hm : some g ∈ sec
      · rw [show pass2 (g :: gs) (r :: rs) sec
            = 'y' :: pass2 gs rs (consumeFirst g sec)
            from by simp [pass2, hr, hm]] at hx
        rcases List.mem_cons.mp hx with rfl | hx2
        · exact Or.inr (Or.inl rfl)
        · exact pass2_out_values gs rs (consumeFirst g sec) hv2 x hx2
      · rw [show pass2 (g :: gs) (r :: rs) sec = r :: pass2 gs rs sec
            from by simp [pass2, hr, hm]] at hx
        rcases List.mem_cons.mp hx with rfl | hx2
        · rcases hvr with h | h
          · exact Or.inl h
          · exact Or.inr (Or.inr h)
        · exact pass2_out_values gs rs sec hv2 x hx2

theorem countP_zip_right (p : Char → Bool) :
    ∀ (gs out : List Char), gs.length = out.length →
      (gs.zip out).countP (fun x => p x.2) = out.countP p
  | [], [] => fun _ => rfl
  | [], o :: os => fun h => by simp at h
  | g :: gs, [] => fun h => by simp at h
  | g :: gs, o :: os => fun h => by
    simp only [List.zip_cons_cons, List.countP_cons]
    rw [countP_zip_right p gs os (by simpa using h)]

theorem countP_split_gyb (c : Char) :
    ∀ l : List (Char × Char),
      (∀ x ∈ l, x.2 = 'g' ∨ x.2 = 'y' ∨ x.2 = 'b') →
      l.countP (fun x => decide (x.1 = c) && decide (x.2 ≠ 'b'))
        = l.countP (fun x => decide (x.1 = c) && decide (x.2 = 'g'))
          + l.countP (fun x => decide (x.1 = c) && decide (x.2 = 'y'))
  | [] => fun _ => rfl
  | (a, b) :: l => fun hv => by
    have hb := hv (a, b) (List.mem_cons_self _ _)
    have hv2 : ∀ y ∈ l, y.2 = 'g' ∨ y.2 = 'y' ∨ y.2 = 'b' :=
      fun y hy => hv y (List.mem_cons_of_mem _ hy)
    simp only [List.countP_cons]
    rw [countP_split_gyb c l hv2]
    rcases hb with hb | hb | hb <;> simp only at hb <;> subst hb <;>
      by_cases hac : a = c <;> simp [hac] <;> omega

theorem pass1_res_values : ∀ (g s : List Char), ∀ r ∈ (pass1 g s).1,
    r = 'g' ∨ r = 'b'
  | [], s => fun r hr => by simp [pass1] at hr
  | g :: gs, [] => fun r hr => by simp [pass1] at hr
  | g :: gs, s :: ss => fun r hr => by
    by_cases h : g = s
    · rw [show (pass1 (g :: gs) (s :: ss)).1 = 'g' :: (pass1 gs ss).1
          from by simp [pass1, h]] at hr
      rcases List.mem_cons.mp hr with rfl | hr2
      · exact Or.inl rfl
      · exact pass1_res_values gs ss r hr2
    · rw [show (pass1 (g :: gs) (s :: ss)).1 = 'b' :: (pass1 gs ss).1
          from by simp [pass1, h]] at hr
      rcases List.mem_cons.mp hr with rfl | hr2
      · exact Or.inr rfl
      · exact pass1_res_values gs ss r hr2

theorem pass1_length : ∀ (g s : List Char),
    (pass1 g s).1.length = min g.length s.length
    ∧ (pass1 g s).2.length = min g.length s.length
  | [], s => by simp [pass1]
  | g :: gs, [] => by simp [pass1]
  | g :: gs, s :: ss => by
    have ih := pass1_length gs ss
    by_cases h : g = s <;>
      simp [pass1, h, ih.1, ih.2, Nat.succ_min_succ]

theorem pass2_length : ∀ (gs rs : List Char) (sec : List (Option Char)),
    (pass2 gs rs sec).length = min gs.length rs.length
  | [], rs, sec => by simp [pass2]
  | g :: gs, [], sec => by simp [pass2]
  | g :: gs, r :: rs, sec => by
    by_cases hr : r = 'g'
    · simp [pass2, hr, pass2_length gs rs sec, Nat.succ_min_succ]
    · by_cases hm : some g ∈ sec
      · simp [pass2, hr, hm, pass2_length gs rs (consumeFirst g sec),
          Nat.succ_min_succ]
      · simp [pass2, hr, hm, pass2_length gs rs sec, Nat.succ_min_succ]

theorem pass1_counts (c : Char) :
    ∀ (g s : List Char), g.length = s.length →
      s.count c
          = (g.zip (pass1 g s).1).countP
              (fun x => decide (x.1 = c) && decide (x.2 = 'g'))
            + countOpt c (pass1 g s).2
      ∧ g.count c
          = (g.zip (pass1 g s).1).countP
              (fun x => decide (x.1 = c) && decide (x.2 = 'g'))
            + (g.zip (pass1 g s).1).countP
              (fun x => decide (x.1 = c) && decide (x.2 ≠ 'g'))
  | [], [] => fun _ => by simp [pass1, countOpt]
  | [], s :: ss => fun h => by simp at h
  | g :: gs, [] => fun h => by simp at h
  | g :: gs, s :: ss => fun h => by
    have ih := pass1_counts c gs ss (by simpa using h)
    have ih1 := ih.1
    have ih2 := ih.2
    simp only [ne_eq, decide_not] at ih2
    by_cases hgs : g = s
    · subst hgs
      have hp : pass1 (g :: gs) (g :: ss)
          = ('g' :: (pass1 gs ss).1, none :: (pass1 gs ss).2) := by
        simp [pass1]
      rw [hp]
      simp only [List.zip_cons_cons, List.countP_cons, List.count_cons,
        countOpt_cons]
      by_cases hc : g = c
      · constructor <;> simp [hc] <;> omega
      · constructor <;> simp [hc] <;> omega
    · have hp : pass1 (g :: gs) (s :: ss)
          = ('b' :: (pass1 gs ss).1, some s :: (pass1 gs ss).2) := by
        simp [pass1, hgs]
      rw [hp]
      simp only [List.zip_cons_cons, List.countP_cons, List.count_cons,
        countOpt_cons]
      by_cases hc : g = c <;> by_cases hsc : s = c
      · exact absurd (hc.trans hsc.symm) hgs
      · constructor <;> simp [hc, hsc] <;> omega
      · constructor <;> simp [hc, hsc] <;> omega
      · constructor <;> simp [hc, hsc] <;> omega

theorem scoreCore_count (c : Char) (s g : List Char)
    (hl : g.length = s.length) :
    (g.zip (scoreCore s g)).countP
        (fun x => decide (x.1 = c) && decide (x.2 ≠ 'b'))
      = min (s.count c) (g.count c) := by
  have hres := pass1_res_values g s
  have hrl : g.length = (pass1 g s).1.length := by
    rw [(pass1_length g s).1, hl, Nat.min_self]
  have hcore : scoreCore s g = pass2 g (pass1 g s).1 (pass1 g s).2 := rfl
  have hvzip : ∀ x ∈ g.zip (scoreCore s g), x.2 = 'g' ∨ x.2 = 'y' ∨ x.2 = 'b' := by
    intro x hx
    have hx2 := (List.of_mem_zip hx).2
    rw [hcore] at hx2
    exact pass2_out_values g (pass1 g s).1 (pass1 g s).2 hres x.2 hx2
  rw [countP_split_gyb c (g.zip (scoreCore s g)) hvzip, hcore,
    pass2_green_count c g (pass1 g s).1 (pass1 g s).2,
    pass2_yellow_count c g (pass1 g s).1 (pass1 g s).2 hrl hres]
  have h1 := (pass1_counts c g s hl).1
  have h2 := (pass1_counts c g s hl).2
  omega

theorem scoreCore_total (s g : List Char) (hl : g.length = s.length) :
    (scoreCore s g).countP (fun r => decide (r ≠ 'b'))
      = Multiset.card ((↑s : Multiset Char) ∩ ↑g) := by
  have hcore : scoreCore s g = pass2 g (pass1 g s).1 (pass1 g s).2 := rfl
  have hlenout : (scoreCore s g).length = g.length := by
    rw [hcore, pass2_length, (pass1_length g s).1, hl, Nat.min_self,
      Nat.min_self]
  have hcount : ∀ c : Char,
      (((g.zip (scoreCore s g)).filter
          (fun x => decide (x.2 ≠ 'b'))).map Prod.fst).count c
        = (g.zip (scoreCore s g)).countP
            (fun x => decide (x.1 = c) && decide (x.2 ≠ 'b')) := by
    intro c
    rw [List.count_eq_countP, List.countP_map, List.countP_filter]
    congr 1
  have hMeq : (↑(((g.zip (scoreCore s g)).filter
        (fun x => decide (x.2 ≠ 'b'))).map Prod.fst) : Multiset Char)
      = (↑s : Multiset Char) ∩ ↑g := by
    refine Multiset.ext.mpr (fun c => ?_)
    rw [Multiset.count_inter, Multiset.coe_count, Multiset.coe_count,
      Multiset.coe_count, hcount c, scoreCore_count c s g hl]
  calc (scoreCore s g).countP (fun r => decide (r ≠ 'b'))
      = (g.zip (scoreCore s g)).countP (fun x => decide (x.2 ≠ 'b')) :=
        (countP_zip_right _ g _ hlenout.symm).symm
    _ = (((g.zip (scoreCore s g)).filter
          (fun x => decide (x.2 ≠ 'b'))).map Prod.fst).length := by
        rw [List.length_map, List.countP_eq_length_filter]
    _ = Multiset.card (↑(((g.zip (scoreCore s g)).filter
          (fun x => decide (x.2 ≠ 'b'))).map Prod.fst) : Multiset Char) :=
        (Multiset.coe_card _).symm
    _ = _ := by rw [hMeq]

/-- C4: for 5-letter words, the number of non-grey symbols in the score is
exactly the size of the multiset intersection of the letters of secret and
guess (the sum over letters of the minimum per-letter multiplicity), and for
each individual letter the number of non-grey positions guessing it never
exceeds that letter's minimum multiplicity. -/
theorem score_counts_multiset_inter (S G : String)
    (hs : S.toList.length = 5) (hg : G.toList.length = 5)
    (hsl : ∀ c ∈ S.toList, c.isLower = true)
    (hgl : ∀ c ∈ G.toList, c.isLower = true) :
    ∃ P : String, score_guess S G = some P
      ∧ P.toList.countP (fun r => decide (r ≠ 'b'))
          = Multiset.card ((↑S.toList : Multiset Char) ∩ ↑G.toList)
      ∧ ∀ c : Char,
          (G.toList.zip P.toList).countP
              (fun x => decide (x.1 = c) && decide (x.2 ≠ 'b'))
            ≤ min (S.toList.count c) (G.toList.count c) := by
  have hl : G.toList.length = S.toList.length := by rw [hs, hg]
  have hsc : score_guess S G
      = some (String.mk (scoreCore S.toList G.toList)) := by
    have h := score_guess_eq_some S G hs hg
    rw [pyLower_eq_self _ hsl, pyLower_eq_self _ hgl] at h
    exact h
  refine ⟨String.mk (scoreCore S.toList G.toList), hsc, ?_, ?_⟩
  · show (scoreCore S.toList G.toList).countP _ = _
    exact scoreCore_total S.toList G.toList hl
  · intro c
    show (G.toList.zip (scoreCore S.toList G.toList)).countP _ ≤ _
    rw [scoreCore_count c S.toList G.toList hl]

/-- Witness for C4 at secret "allow", guess "lolly". -/
theorem score_counts_multiset_inter_w :
    ∃ P : String, score_guess "allow" "lolly" = some P
      ∧ P.toList.countP (fun r => decide (r ≠ 'b'))
          = Multiset.card ((↑("allow".toList) : Multiset Char)
              ∩ ↑("lolly".toList))
      ∧ ∀ c : Char,
          (("lolly".toList).zip P.toList).countP
              (fun x => decide (x.1 = c) && decide (x.2 ≠ 'b'))
            ≤ min (("allow".toList).count c) (("lolly".toList).count c) :=
  score_counts_multiset_inter "allow" "lolly" (by decide) (by decide)
    (by decide) (by decide)

end WordleBuster
